import Mathlib

/-!
Verification of the incremental-sync core of the autodocs tool
(src/src/main.rs) against its natural-language specification.

The Rust program is shallowly embedded below.  Strings are modelled as
lists of characters; the filesystem inputs (the walked file list and a
content oracle), the SHA-256 digest, the wall clock and the translation
backend are parameters of the model, exactly the collaborators the
program reaches through std::fs, sha2, SystemTime and the HTTP client.
The observable behaviour of one invocation of run is captured as a trace
of events (copies, skips, backend calls, output writes, metadata
appends and metadata persists) together with the final in-memory and
on-disk metadata records.
-/

namespace Autodocs

/-- Rust String values are modelled as lists of characters. -/
abbrev Str := List Char

/-- Turn a Lean string literal into the character-list model. -/
def str (s : String) : Str := s.data

/-- Filter section of the YAML config (struct Filter, main.rs lines 17-22).
The source field named include is spelled include' here because include is
a Lean keyword; the run function never reads it, mirroring the source. -/
structure Filter where
  target : Str
  include' : List Str
  exclude : List Str
  deriving Repr, DecidableEq

/-- Translation engine section of the config (struct Engine, lines 24-30).
Only consumed by the external backend call, never by the sync core. -/
structure Engine where
  name : Str
  url : Str
  model : Str
  api_key_file : Str
  deriving Repr, DecidableEq

/-- Whole config (struct TranslationConfig, lines 32-38). -/
structure TranslationConfig where
  repo : Str
  branch : Str
  engine : Engine
  filter : Filter
  deriving Repr, DecidableEq

/-- Per-file metadata entry (struct FileEntry, lines 40-45). -/
structure FileEntry where
  path : Str
  hash : Str
  translation_timestamp : Nat
  deriving Repr, DecidableEq

/-- Metadata record (struct TranslationMeta, lines 47-51). -/
structure TranslationMeta where
  commit : Str
  files : List FileEntry
  deriving Repr, DecidableEq

/-- Parse the target filter string into a list of suffixes
(fn prase_target_suffix, lines 66-73): delete every star, delete every
dot, then split on the space character, keeping empty pieces exactly as
Rust str::split does. -/
def prase_target_suffix (target : Str) : List Str :=
  let no_star := target.filter fun c => !(c == '*')
  let no_dot := no_star.filter fun c => !(c == '.')
  no_dot.splitOn ' '

/-- The two character deletions performed by prase_target_suffix before
splitting: remove every star, then every dot. -/
def stripStarsDots (s : Str) : Str :=
  (s.filter fun c => !(c == '*')).filter fun c => !(c == '.')

/-- Rust str::contains for plain substring needles
(used at line 245: file.contains(e)). -/
def containsStr (hay needle : Str) : Bool :=
  match hay with
  | [] => needle.isEmpty
  | _ :: t => needle.isPrefixOf hay || containsStr t needle

/-- Fuel-indexed worker for replaceAll; the fuel is an upper bound on the
number of characters still to be scanned, so hay.length fuel is enough. -/
def replaceAllAux (pat repl : Str) : Nat → Str → Str
  | _, [] => []
  | 0, s => s
  | fuel + 1, c :: rest =>
    if pat.isPrefixOf (c :: rest) && !pat.isEmpty then
      repl ++ replaceAllAux pat repl fuel ((c :: rest).drop pat.length)
    else
      c :: replaceAllAux pat repl fuel rest

/-- Rust str::replace: replace every non-overlapping occurrence of pat,
scanning left to right (used at lines 259 and 285 to map a source path
into the translated tree).  The pattern is never empty where the program
calls it, since repo_path always starts with the workspace root. -/
def replaceAll (pat repl s : Str) : Str := replaceAllAux pat repl s.length s

/-- Directory part of a path as the source computes it
(lines 260 and 286): rsplitn(2, "/").last(), i.e. everything before the
last slash, or the whole string when there is no slash. -/
def dirname (p : Str) : Str :=
  let parts := p.splitOn '/'
  if parts.length ≤ 1 then p else List.intercalate (str "/") parts.dropLast

/-- Hard-coded workspace root (line 125). -/
def workspace : Str := str "./workspace"

/-- Repository directory name (lines 126-127):
repo.split("/").last().split(".").next(). -/
def repo_name (repo : Str) : Str :=
  (((repo.splitOn '/').getLastD []).splitOn '.').headD []

/-- Source checkout path (line 128). -/
def repo_path (repo : Str) : Str := workspace ++ str "/" ++ repo_name repo

/-- Translated output tree path (line 129). -/
def translated_repo_path (repo : Str) : Str :=
  workspace ++ str "/" ++ repo_name repo ++ str "-translated"

/-- Filtering of the walked file list (lines 228-254): keep a file when
some parsed suffix is a raw string suffix of its path and no exclude
entry occurs as a substring of its path. -/
def filteredFiles (flt : Filter) (files : List Str) : List Str :=
  let suffix := prase_target_suffix flt.target
  files.filter fun file =>
    (suffix.any fun s => s.isSuffixOf file) &&
      !(flt.exclude.any fun e => containsStr file e)

/-- Observable actions of one run, in program order. -/
inductive Event where
  /-- Pass-through copy (lines 257-267): parent dir ensured, then the
  source bytes written verbatim at the mapped path. -/
  | copy (src dir out data : Str)
  /-- Translatable file skipped because a metadata entry matched
  (lines 281-284). -/
  | skip (src : Str)
  /-- Parent directory of the mapped path ensured inside the translation
  loop (lines 286-289). -/
  | mkdir (src dir : Str)
  /-- Empty content written unconditionally at the mapped path
  (lines 292-296). -/
  | emptyCopy (src out : Str)
  /-- Translation backend invoked with the file content (line 300). -/
  | call (src content : Str)
  /-- Translated content written at the mapped path (line 301). -/
  | write (src out data : Str)
  /-- FileEntry appended to the in-memory metadata (lines 302-310). -/
  | record (entry : FileEntry)
  /-- Metadata record persisted to disk (line 311, fn write_meta). -/
  | metaWrite
  deriving Repr, DecidableEq

/-- Output-tree path an event writes at, when it writes one. -/
def Event.outPath : Event → Option Str
  | .copy _ _ out _ => some out
  | .emptyCopy _ out => some out
  | .write _ out _ => some out
  | _ => none

/-- Source file an event concerns, when it concerns one. -/
def Event.srcOf : Event → Option Str
  | .copy src _ _ _ => some src
  | .skip src => some src
  | .mkdir src _ => some src
  | .emptyCopy src _ => some src
  | .call src _ => some src
  | .write src _ _ => some src
  | .record e => some e.path
  | .metaWrite => none

/-- Entries appended to the metadata during a trace, in order. -/
def recordsOf (t : List Event) : List FileEntry :=
  t.filterMap fun ev => match ev with | .record e => some e | _ => none

/-- Source files of the successful translated-output writes, in order. -/
def writeSrcsOf (t : List Event) : List Str :=
  t.filterMap fun ev => match ev with | .write src _ _ => some src | _ => none

/-- External collaborators and derived paths, fixed for one run. -/
structure Ctx where
  /-- Hex SHA-256 digest of a file content (sha2 crate, line 273). -/
  sha : Str → Str
  /-- Translation backend (fn agent_translate); none models the
  HTTP-error case, in which the unwrap aborts the whole run. -/
  translate : Str → Option Str
  /-- File content oracle (std::fs::read / read_to_string). -/
  content : Str → Str
  /-- Wall clock, indexed by how many times it has been read
  (SystemTime::now at line 305). -/
  clock : Nat → Nat
  /-- Source checkout root. -/
  repo_path : Str
  /-- Translated output root. -/
  translated_repo_path : Str

/-- Mutable state of the translation loop (lines 271-313). -/
structure RunState where
  meta : TranslationMeta
  /-- Last metadata record persisted to disk; initially the pre-run
  on-disk record. -/
  disk : TranslationMeta
  translated_count : Nat
  /-- Number of clock reads so far. -/
  ticks : Nat
  trace : List Event
  aborted : Bool
  deriving Repr, DecidableEq

/-- One iteration of the translation loop (lines 272-313).  An aborted
state is absorbing: after a failed unwrap nothing further happens. -/
def processFile (ctx : Ctx) (st : RunState) (f : Str) : RunState :=
  if st.aborted then st
  else
    let hash := ctx.sha (ctx.content f)
    if st.meta.files.any fun e => e.path == f && e.hash == hash then
      { st with translated_count := st.translated_count + 1,
                trace := st.trace ++ [Event.skip f] }
    else
      let translated_path := replaceAll ctx.repo_path ctx.translated_repo_path f
      let translated_dir := dirname translated_path
      let c := ctx.content f
      if c = [] then
        { st with translated_count := st.translated_count + 1,
                  trace := st.trace ++ [Event.mkdir f translated_dir,
                                        Event.emptyCopy f translated_path] }
      else
        match ctx.translate c with
        | none =>
          { st with aborted := true,
                    trace := st.trace ++ [Event.mkdir f translated_dir,
                                          Event.call f c] }
        | some translated_content =>
          let entry : FileEntry :=
            { path := f, hash := hash, translation_timestamp := ctx.clock st.ticks }
          let meta' : TranslationMeta := { st.meta with files := st.meta.files ++ [entry] }
          { st with meta := meta', disk := meta', ticks := st.ticks + 1,
                    trace := st.trace ++ [Event.mkdir f translated_dir,
                                          Event.call f c,
                                          Event.write f translated_path translated_content,
                                          Event.record entry,
                                          Event.metaWrite] }

/-- The whole translation loop over the filtered files. -/
def runLoop (ctx : Ctx) (l : List Str) (st : RunState) : RunState :=
  l.foldl (processFile ctx) st

/-- Pass-through phase (lines 257-268): every walked file not in the
filtered list is copied verbatim into the translated tree. -/
def copyPhase (ctx : Ctx) (filtered files : List Str) : List Event :=
  files.filterMap fun file =>
    if filtered.contains file then none
    else
      let translated_path := replaceAll ctx.repo_path ctx.translated_repo_path file
      some (Event.copy file (dirname translated_path) translated_path (ctx.content file))

/-- Context for one run derived from the config and the collaborators. -/
def mkCtx (config : TranslationConfig) (content : Str → Str) (sha : Str → Str)
    (translate : Str → Option Str) (clock : Nat → Nat) : Ctx :=
  { sha := sha, translate := translate, content := content, clock := clock,
    repo_path := repo_path config.repo,
    translated_repo_path := translated_repo_path config.repo }

/-- State at the start of the translation loop: metadata loaded from
disk with its commit field updated in memory to the current HEAD
(lines 166-195), disk still holding the pre-run record, and the
pass-through copies already performed. -/
def initState (ctx : Ctx) (flt : Filter) (files : List Str)
    (meta0 : TranslationMeta) (commit : Str) : RunState :=
  { meta := { meta0 with commit := commit }, disk := meta0,
    translated_count := 0, ticks := 0,
    trace := copyPhase ctx (filteredFiles flt files) files,
    aborted := false }

/-- Observable outcome of one invocation of run. -/
structure RunResult where
  filtered : List Str
  meta : TranslationMeta
  disk : TranslationMeta
  translated_count : Nat
  trace : List Event
  aborted : Bool
  deriving Repr, DecidableEq

/-- One invocation of fn run (lines 112-320), starting after the
external git sync: files is the walked file list, content the
filesystem oracle, meta0 the metadata record loaded from disk (the
empty default when the file is absent), commit the rev-parse result. -/
def run (config : TranslationConfig) (files : List Str) (content : Str → Str)
    (meta0 : TranslationMeta) (commit : Str) (sha : Str → Str)
    (translate : Str → Option Str) (clock : Nat → Nat) : RunResult :=
  let ctx := mkCtx config content sha translate clock
  let filtered := filteredFiles config.filter files
  let stF := runLoop ctx filtered (initState ctx config.filter files meta0 commit)
  { filtered := filtered, meta := stF.meta, disk := stF.disk,
    translated_count := stF.translated_count, trace := stF.trace,
    aborted := stF.aborted }

/-! ### Concrete fixtures used by counterexamples and witnesses -/

/-- Engine block of the concrete test configs (its contents are never
read by the sync core). -/
def engX : Engine := ⟨str "openai", str "http://u", str "gpt", str "key.txt"⟩

/-- Config with target *.md, no includes, no excludes, repo name r. -/
def cfgMd : TranslationConfig := ⟨str "r", str "main", engX, ⟨str "*.md", [], []⟩⟩

/-- Config with target *.txt, used by the pass-through counterexample. -/
def cfgTxt : TranslationConfig := ⟨str "r", str "main", engX, ⟨str "*.txt", [], []⟩⟩

/-- Concrete digest stand-in for the external SHA-256: prefix an H.
Only its values at the concrete contents of each fixture matter. -/
def shaH : Str → Str := fun c => 'H' :: c

/-- Concrete translation backend stand-in: prefix a T, always succeeds. -/
def trT : Str → Option Str := fun c => some ('T' :: c)

/-- Constant clock. -/
def clk0 : Nat → Nat := fun _ => 0

/-- Run on a single empty translatable file with empty prior metadata
(fixture for the empty-file claim). -/
def rC1 : RunResult :=
  run cfgMd [str "./workspace/r/a.md"] (fun _ => []) ⟨str "old", []⟩ (str "new")
    shaH trT clk0

/-- Run in which the only translatable file is already recorded, so
nothing is newly translated (fixture for the end-of-run persist claim). -/
def rC2 : RunResult :=
  run cfgMd [str "./workspace/r/a.md"] (fun _ => str "hi")
    ⟨str "old", [⟨str "./workspace/r/a.md", shaH (str "hi"), 7⟩]⟩ (str "new")
    shaH trT clk0

/-- Run that retranslates a file whose content changed since the prior
metadata entry (fixture for the one-entry-per-path claim). -/
def rC7 : RunResult :=
  run cfgMd [str "./workspace/r/a.md"] (fun _ => str "new content")
    ⟨str "old", [⟨str "./workspace/r/a.md", str "Hstale", 7⟩]⟩ (str "new")
    shaH trT clk0

/-- Pass-through file whose path contains the source root string twice
(fixture for the path-substitution claim). -/
def pC8 : Str := str "./workspace/r/x./workspace/rest.md"

/-- Run with one pass-through file containing the source root twice. -/
def rC8 : RunResult :=
  run cfgTxt [pC8] (fun _ => str "hello") ⟨str "old", []⟩ (str "new") shaH trT clk0

/-- Output path the specification describes: substitute the source root
PREFIX of the path with the output root.  This follows the words of the
spec and is compared against the replaceAll-based path the code uses. -/
def rootSubstOutput (root out p : Str) : Str := out ++ p.drop root.length

/-- First run of the idempotence fixture: one non-empty file, empty
prior metadata, successful backend. -/
def rC6a : RunResult :=
  run cfgMd [str "./workspace/r/a.md"] (fun _ => str "hi") ⟨str "old", []⟩ (str "c1")
    shaH trT clk0

/-- Second run of the idempotence fixture over unchanged content,
loading the metadata the first run left on disk. -/
def rC6b : RunResult :=
  run cfgMd [str "./workspace/r/a.md"] (fun _ => str "hi") rC6a.disk (str "c2")
    shaH trT clk0

/-! ### Basic lemmas about the embedding -/

theorem recordsOf_append (a b : List Event) :
    recordsOf (a ++ b) = recordsOf a ++ recordsOf b := by
  simp [recordsOf]

theorem writeSrcsOf_append (a b : List Event) :
    writeSrcsOf (a ++ b) = writeSrcsOf a ++ writeSrcsOf b := by
  simp [writeSrcsOf]

theorem any_match_iff (files : List FileEntry) (f h : Str) :
    (files.any fun e => e.path == f && e.hash == h) = true ↔
      ∃ e ∈ files, e.path = f ∧ e.hash = h := by
  simp [List.any_eq_true]

theorem processFile_of_aborted {ctx : Ctx} {st : RunState} {f : Str}
    (h : st.aborted = true) : processFile ctx st f = st := by
  simp [processFile, h]

theorem processFile_skip {ctx : Ctx} {st : RunState} {f : Str}
    (h : st.aborted = false)
    (hm : (st.meta.files.any fun e => e.path == f && e.hash == ctx.sha (ctx.content f)) = true) :
    processFile ctx st f =
      { st with translated_count := st.translated_count + 1,
                trace := st.trace ++ [Event.skip f] } := by
  simp [processFile, h, hm]

theorem processFile_empty {ctx : Ctx} {st : RunState} {f : Str}
    (h : st.aborted = false)
    (hm : (st.meta.files.any fun e => e.path == f && e.hash == ctx.sha (ctx.content f)) = false)
    (hc : ctx.content f = []) :
    processFile ctx st f =
      { st with translated_count := st.translated_count + 1,
                trace := st.trace ++
                  [Event.mkdir f (dirname (replaceAll ctx.repo_path ctx.translated_repo_path f)),
                   Event.emptyCopy f (replaceAll ctx.repo_path ctx.translated_repo_path f)] } := by
  have hm' : (st.meta.files.any fun e => e.path == f && e.hash == ctx.sha []) = false := by
    rw [← hc]; exact hm
  simp [processFile, h, hm', hc]

theorem processFile_fail {ctx : Ctx} {st : RunState} {f : Str}
    (h : st.aborted = false)
    (hm : (st.meta.files.any fun e => e.path == f && e.hash == ctx.sha (ctx.content f)) = false)
    (hc : ¬ ctx.content f = [])
    (ht : ctx.translate (ctx.content f) = none) :
    processFile ctx st f =
      { st with aborted := true,
                trace := st.trace ++
                  [Event.mkdir f (dirname (replaceAll ctx.repo_path ctx.translated_repo_path f)),
                   Event.call f (ctx.content f)] } := by
  simp [processFile, h, hm, hc, ht]

theorem processFile_ok {ctx : Ctx} {st : RunState} {f : Str} {t : Str}
    (h : st.aborted = false)
    (hm : (st.meta.files.any fun e => e.path == f && e.hash == ctx.sha (ctx.content f)) = false)
    (hc : ¬ ctx.content f = [])
    (ht : ctx.translate (ctx.content f) = some t) :
    processFile ctx st f =
      { st with
        meta := { st.meta with files := st.meta.files ++
          [{ path := f, hash := ctx.sha (ctx.content f),
             translation_timestamp := ctx.clock st.ticks }] },
        disk := { st.meta with files := st.meta.files ++
          [{ path := f, hash := ctx.sha (ctx.content f),
             translation_timestamp := ctx.clock st.ticks }] },
        ticks := st.ticks + 1,
        trace := st.trace ++
          [Event.mkdir f (dirname (replaceAll ctx.repo_path ctx.translated_repo_path f)),
           Event.call f (ctx.content f),
           Event.write f (replaceAll ctx.repo_path ctx.translated_repo_path f) t,
           Event.record { path := f, hash := ctx.sha (ctx.content f),
                          translation_timestamp := ctx.clock st.ticks },
           Event.metaWrite] } := by
  simp [processFile, h, hm, hc, ht]

theorem runLoop_nil (ctx : Ctx) (st : RunState) : runLoop ctx [] st = st := rfl

theorem runLoop_cons (ctx : Ctx) (f : Str) (l : List Str) (st : RunState) :
    runLoop ctx (f :: l) st = runLoop ctx l (processFile ctx st f) := rfl

theorem runLoop_append (ctx : Ctx) (l₁ l₂ : List Str) (st : RunState) :
    runLoop ctx (l₁ ++ l₂) st = runLoop ctx l₂ (runLoop ctx l₁ st) := by
  simp [runLoop, List.foldl_append]

theorem runLoop_of_aborted {ctx : Ctx} {st : RunState} (l : List Str)
    (h : st.aborted = true) : runLoop ctx l st = st := by
  induction l with
  | nil => rfl
  | cons f l ih => rw [runLoop_cons, processFile_of_aborted h, ih]

theorem aborted_runLoop_mono {ctx : Ctx} {st : RunState} (l : List Str)
    (h : st.aborted = true) : (runLoop ctx l st).aborted = true := by
  rw [runLoop_of_aborted l h]; exact h

theorem aborted_of_runLoop {ctx : Ctx} {st : RunState} {l : List Str}
    (h : (runLoop ctx l st).aborted = false) : st.aborted = false := by
  by_contra hc
  rw [runLoop_of_aborted l (Bool.not_eq_false _ ▸ hc)] at h
  exact absurd h (by simp [Bool.not_eq_false _ ▸ hc])

/-- Effect of one non-aborted loop iteration, summarised on the trace
delta: events concern only the processed file, metadata grows exactly by
the recorded entries, records carry the hash of the current content of a
non-empty file, records correspond one to one to output writes, and
backend calls carry exactly the non-empty file content. -/
theorem processFile_spec (ctx : Ctx) (st : RunState) (f : Str) (h : st.aborted = false) :
    ∃ Δ₀, (processFile ctx st f).trace = st.trace ++ Δ₀ ∧
      (processFile ctx st f).meta.commit = st.meta.commit ∧
      (processFile ctx st f).meta.files = st.meta.files ++ recordsOf Δ₀ ∧
      (∀ ev ∈ Δ₀, ∀ g, ev.srcOf = some g → g = f) ∧
      (∀ e ∈ recordsOf Δ₀, ctx.content e.path ≠ [] ∧ e.hash = ctx.sha (ctx.content e.path)) ∧
      ((recordsOf Δ₀).map (fun e => (e.path, e.hash)) =
        (writeSrcsOf Δ₀).map (fun g => (g, ctx.sha (ctx.content g)))) ∧
      (∀ g c, Event.call g c ∈ Δ₀ → c = ctx.content g ∧ c ≠ []) := by
  by_cases hm : (st.meta.files.any fun e => e.path == f && e.hash == ctx.sha (ctx.content f)) = true
  · refine ⟨[Event.skip f], ?_, ?_, ?_, ?_, ?_, ?_, ?_⟩
    · simp [processFile_skip h hm]
    · simp [processFile_skip h hm]
    · simp [processFile_skip h hm, recordsOf]
    · rintro ev hev g hg
      simp only [List.mem_singleton] at hev
      subst hev
      simp only [Event.srcOf, Option.some.injEq] at hg
      exact hg.symm
    · simp [recordsOf]
    · simp [recordsOf, writeSrcsOf]
    · intro g c hgc
      simp at hgc
  · have hm' : (st.meta.files.any fun e => e.path == f && e.hash == ctx.sha (ctx.content f)) = false := by
      simpa using hm
    by_cases hc : ctx.content f = []
    · refine ⟨[Event.mkdir f (dirname (replaceAll ctx.repo_path ctx.translated_repo_path f)),
               Event.emptyCopy f (replaceAll ctx.repo_path ctx.translated_repo_path f)],
        ?_, ?_, ?_, ?_, ?_, ?_, ?_⟩
      · simp [processFile_empty h hm' hc]
      · simp [processFile_empty h hm' hc]
      · simp [processFile_empty h hm' hc, recordsOf]
      · rintro ev hev g hg
        simp only [List.mem_cons, List.mem_singleton] at hev
        rcases hev with hev | hev | hev
        · subst hev; simp only [Event.srcOf, Option.some.injEq] at hg; exact hg.symm
        · subst hev; simp only [Event.srcOf, Option.some.injEq] at hg; exact hg.symm
        · simp at hev
      · simp [recordsOf]
      · simp [recordsOf, writeSrcsOf]
      · intro g c hgc
        simp at hgc
    · cases ht : ctx.translate (ctx.content f) with
      | none =>
        refine ⟨[Event.mkdir f (dirname (replaceAll ctx.repo_path ctx.translated_repo_path f)),
                 Event.call f (ctx.content f)],
          ?_, ?_, ?_, ?_, ?_, ?_, ?_⟩
        · simp [processFile_fail h hm' hc ht]
        · simp [processFile_fail h hm' hc ht]
        · simp [processFile_fail h hm' hc ht, recordsOf]
        · rintro ev hev g hg
          simp only [List.mem_cons, List.mem_singleton] at hev
          rcases hev with hev | hev | hev
          · subst hev; simp only [Event.srcOf, Option.some.injEq] at hg; exact hg.symm
          · subst hev; simp only [Event.srcOf, Option.some.injEq] at hg; exact hg.symm
          · simp at hev
        · simp [recordsOf]
        · simp [recordsOf, writeSrcsOf]
        · intro g c hgc
          simp only [List.mem_cons, List.mem_singleton] at hgc
          rcases hgc with hgc | hgc | hgc
          · simp at hgc
          · obtain ⟨rfl, rfl⟩ := Event.call.inj hgc
            exact ⟨rfl, hc⟩
          · simp at hgc
      | some t =>
        refine ⟨[Event.mkdir f (dirname (replaceAll ctx.repo_path ctx.translated_repo_path f)),
                 Event.call f (ctx.content f),
                 Event.write f (replaceAll ctx.repo_path ctx.translated_repo_path f) t,
                 Event.record { path := f, hash := ctx.sha (ctx.content f),
                                translation_timestamp := ctx.clock st.ticks },
                 Event.metaWrite],
          ?_, ?_, ?_, ?_, ?_, ?_, ?_⟩
        · simp [processFile_ok h hm' hc ht]
        · simp [processFile_ok h hm' hc ht]
        · simp [processFile_ok h hm' hc ht, recordsOf]
        · rintro ev hev g hg
          simp only [List.mem_cons, List.mem_singleton] at hev
          rcases hev with hev | hev | hev | hev | hev | hev
          · subst hev; simp only [Event.srcOf, Option.some.injEq] at hg; exact hg.symm
          · subst hev; simp only [Event.srcOf, Option.some.injEq] at hg; exact hg.symm
          · subst hev; simp only [Event.srcOf, Option.some.injEq] at hg; exact hg.symm
          · subst hev; simp only [Event.srcOf, Option.some.injEq] at hg; exact hg.symm
          · subst hev; simp [Event.srcOf] at hg
          · simp at hev
        · intro e he
          simp only [recordsOf, List.filterMap_cons] at he
          simp at he
          subst he
          exact ⟨hc, rfl⟩
        · simp [recordsOf, writeSrcsOf]
        · intro g c hgc
          simp only [List.mem_cons, List.mem_singleton] at hgc
          rcases hgc with hgc | hgc | hgc | hgc | hgc
          · simp at hgc
          · obtain ⟨rfl, rfl⟩ := Event.call.inj hgc
            exact ⟨rfl, hc⟩
          · simp at hgc
          · simp at hgc
          · simp at hgc

/-- Master characterisation of the translation loop: the trace only
grows, new events concern only files of the processed list, the
in-memory metadata grows exactly by the recorded entries, every recorded
entry hashes the current content of a non-empty file, records correspond
one to one with translated-output writes, and every backend call carries
the non-empty content of a processed file. -/
theorem runLoop_spec (ctx : Ctx) (l : List Str) (st : RunState) :
    ∃ Δ, (runLoop ctx l st).trace = st.trace ++ Δ ∧
      (runLoop ctx l st).meta.commit = st.meta.commit ∧
      (runLoop ctx l st).meta.files = st.meta.files ++ recordsOf Δ ∧
      (∀ ev ∈ Δ, ∀ g, ev.srcOf = some g → g ∈ l) ∧
      (∀ e ∈ recordsOf Δ, ctx.content e.path ≠ [] ∧ e.hash = ctx.sha (ctx.content e.path)) ∧
      ((recordsOf Δ).map (fun e => (e.path, e.hash)) =
        (writeSrcsOf Δ).map (fun g => (g, ctx.sha (ctx.content g)))) ∧
      (∀ g c, Event.call g c ∈ Δ → c = ctx.content g ∧ c ≠ []) := by
  induction l generalizing st with
  | nil => exact ⟨[], by simp [runLoop_nil, recordsOf, writeSrcsOf]⟩
  | cons f l ih =>
    rw [runLoop_cons]
    by_cases hab : st.aborted = true
    · rw [processFile_of_aborted hab]
      obtain ⟨Δ, h1, h2, h3, h4, h5, h6, h7⟩ := ih st
      exact ⟨Δ, h1, h2, h3,
        fun ev hev g hg => List.mem_cons_of_mem _ (h4 ev hev g hg), h5, h6, h7⟩
    · have hab' : st.aborted = false := by simpa using hab
      obtain ⟨Δ₀, p1, p2, p3, p4, p5, p6, p7⟩ := processFile_spec ctx st f hab'
      obtain ⟨Δ, h1, h2, h3, h4, h5, h6, h7⟩ := ih (processFile ctx st f)
      refine ⟨Δ₀ ++ Δ, ?_, ?_, ?_, ?_, ?_, ?_, ?_⟩
      · rw [h1, p1, List.append_assoc]
      · rw [h2, p2]
      · rw [h3, p3, recordsOf_append, List.append_assoc]
      · intro ev hev g hg
        rcases List.mem_append.1 hev with hin | hin
        · exact (p4 ev hin g hg) ▸ List.mem_cons_self f l
        · exact List.mem_cons_of_mem _ (h4 ev hin g hg)
      · intro e he
        rw [recordsOf_append] at he
        rcases List.mem_append.1 he with hin | hin
        · exact p5 e hin
        · exact h5 e hin
      · rw [recordsOf_append, writeSrcsOf_append, List.map_append, List.map_append, p6, h6]
      · intro g c hgc
        rcases List.mem_append.1 hgc with hin | hin
        · exact p7 g c hin
        · exact h7 g c hin

theorem aborted_of_processFile {ctx : Ctx} {st : RunState} {f : Str}
    (h : (processFile ctx st f).aborted = false) : st.aborted = false := by
  by_cases hab : st.aborted = true
  · rw [processFile_of_aborted hab] at h
    rw [hab] at h
    exact absurd h (by simp)
  · simpa using hab

theorem runLoop_trace_isPre (ctx : Ctx) (l : List Str) (st : RunState) :
    st.trace <+: (runLoop ctx l st).trace := by
  obtain ⟨Δ, h1, -⟩ := runLoop_spec ctx l st
  exact ⟨Δ, h1.symm⟩

/-- The on-disk and in-memory metadata always carry the same files list:
they start equal and the success branch updates both together. -/
theorem runLoop_disk_files (ctx : Ctx) (l : List Str) (st : RunState)
    (h : st.disk.files = st.meta.files) :
    (runLoop ctx l st).disk.files = (runLoop ctx l st).meta.files := by
  induction l generalizing st with
  | nil => exact h
  | cons f l ih =>
    rw [runLoop_cons]
    apply ih
    by_cases hab : st.aborted = true
    · rw [processFile_of_aborted hab]; exact h
    have hab' : st.aborted = false := by simpa using hab
    by_cases hm : (st.meta.files.any fun e => e.path == f && e.hash == ctx.sha (ctx.content f)) = true
    · rw [processFile_skip hab' hm]; exact h
    have hm' : (st.meta.files.any fun e => e.path == f && e.hash == ctx.sha (ctx.content f)) = false := by
      simpa using hm
    by_cases hc : ctx.content f = []
    · rw [processFile_empty hab' hm' hc]; exact h
    cases ht : ctx.translate (ctx.content f) with
    | none => rw [processFile_fail hab' hm' hc ht]; exact h
    | some t => rw [processFile_ok hab' hm' hc ht]

/-- Running the loop over files that are all either already matched by
the current metadata or empty leaves the metadata and the disk
untouched, aborts nowhere, counts every file as already translated, and
emits only skip, mkdir and emptyCopy events. -/
theorem runLoop_covered (ctx : Ctx) (l : List Str) (st : RunState)
    (hab : st.aborted = false)
    (hcov : ∀ f ∈ l, (∃ e ∈ st.meta.files, e.path = f ∧ e.hash = ctx.sha (ctx.content f)) ∨
      ctx.content f = []) :
    (runLoop ctx l st).meta = st.meta ∧
    (runLoop ctx l st).disk = st.disk ∧
    (runLoop ctx l st).aborted = false ∧
    (runLoop ctx l st).translated_count = st.translated_count + l.length ∧
    ∃ Δ, (runLoop ctx l st).trace = st.trace ++ Δ ∧
      ∀ ev ∈ Δ, (∃ g, ev = Event.skip g) ∨ (∃ g d, ev = Event.mkdir g d) ∨
        ∃ g o, ev = Event.emptyCopy g o := by
  induction l generalizing st with
  | nil =>
    exact ⟨rfl, rfl, hab, by simp [runLoop_nil], [], by simp [runLoop_nil], by simp⟩
  | cons f l ih =>
    rw [runLoop_cons]
    have hcovf := hcov f (List.mem_cons_self f l)
    have hcovl : ∀ g ∈ l,
        (∃ e ∈ st.meta.files, e.path = g ∧ e.hash = ctx.sha (ctx.content g)) ∨
          ctx.content g = [] :=
      fun g hg => hcov g (List.mem_cons_of_mem f hg)
    by_cases hm : (st.meta.files.any fun e => e.path == f && e.hash == ctx.sha (ctx.content f)) = true
    · rw [processFile_skip hab hm]
      obtain ⟨h1, h2, h3, h4, Δ, h5, h6⟩ :=
        ih { st with translated_count := st.translated_count + 1,
                     trace := st.trace ++ [Event.skip f] } hab hcovl
      refine ⟨h1, h2, h3, ?_, Event.skip f :: Δ, ?_, ?_⟩
      · rw [h4]; simp; omega
      · rw [h5]; simp
      · rintro ev hev
        rcases List.mem_cons.1 hev with rfl | hev'
        · exact Or.inl ⟨f, rfl⟩
        · exact h6 ev hev'
    · have hm' : (st.meta.files.any fun e => e.path == f && e.hash == ctx.sha (ctx.content f)) = false := by
        simpa using hm
      have hc : ctx.content f = [] := by
        rcases hcovf with hmatch | hc
        · exact absurd ((any_match_iff st.meta.files f (ctx.sha (ctx.content f))).2 hmatch) (by simp [hm'])
        · exact hc
      rw [processFile_empty hab hm' hc]
      obtain ⟨h1, h2, h3, h4, Δ, h5, h6⟩ :=
        ih { st with translated_count := st.translated_count + 1,
                     trace := st.trace ++
                       [Event.mkdir f (dirname (replaceAll ctx.repo_path ctx.translated_repo_path f)),
                        Event.emptyCopy f (replaceAll ctx.repo_path ctx.translated_repo_path f)] }
          hab hcovl
      refine ⟨h1, h2, h3, ?_,
        Event.mkdir f (dirname (replaceAll ctx.repo_path ctx.translated_repo_path f)) ::
          Event.emptyCopy f (replaceAll ctx.repo_path ctx.translated_repo_path f) :: Δ, ?_, ?_⟩
      · rw [h4]; simp; omega
      · rw [h5]; simp
      · rintro ev hev
        rcases List.mem_cons.1 hev with rfl | hev'
        · exact Or.inr (Or.inl ⟨f, _, rfl⟩)
        rcases List.mem_cons.1 hev' with rfl | hev''
        · exact Or.inr (Or.inr ⟨f, _, rfl⟩)
        · exact h6 ev hev''

/-- Every file the loop ran over without aborting is afterwards covered
by the final in-memory metadata, unless its content is empty. -/
theorem runLoop_coverage (ctx : Ctx) (l : List Str) (st : RunState)
    (hab : (runLoop ctx l st).aborted = false) :
    ∀ f ∈ l, ctx.content f = [] ∨
      ∃ e ∈ (runLoop ctx l st).meta.files, e.path = f ∧ e.hash = ctx.sha (ctx.content f) := by
  induction l generalizing st with
  | nil => intro f hf; simp at hf
  | cons g l ih =>
    intro f hf
    rw [runLoop_cons] at hab ⊢
    have habst' : (processFile ctx st g).aborted = false := aborted_of_runLoop hab
    have habst : st.aborted = false := aborted_of_processFile habst'
    rcases List.mem_cons.1 hf with rfl | hf'
    · by_cases hm : (st.meta.files.any fun e => e.path == f && e.hash == ctx.sha (ctx.content f)) = true
      · right
        obtain ⟨e, he, hep, heh⟩ := (any_match_iff st.meta.files f (ctx.sha (ctx.content f))).1 hm
        obtain ⟨Δ, -, -, h3, -⟩ := runLoop_spec ctx l (processFile ctx st f)
        refine ⟨e, ?_, hep, heh⟩
        rw [h3, processFile_skip habst hm]
        exact List.mem_append_left _ he
      · have hm' : (st.meta.files.any fun e => e.path == f && e.hash == ctx.sha (ctx.content f)) = false := by
          simpa using hm
        by_cases hc : ctx.content f = []
        · exact Or.inl hc
        cases ht : ctx.translate (ctx.content f) with
        | none =>
          exfalso
          have : (processFile ctx st f).aborted = true := by
            rw [processFile_fail habst hm' hc ht]
          rw [this] at habst'
          exact absurd habst' (by simp)
        | some t =>
          right
          obtain ⟨Δ, -, -, h3, -⟩ := runLoop_spec ctx l (processFile ctx st f)
          refine ⟨{ path := f, hash := ctx.sha (ctx.content f),
                    translation_timestamp := ctx.clock st.ticks }, ?_, rfl, rfl⟩
          rw [h3, processFile_ok habst hm' hc ht]
          exact List.mem_append_left _ (by simp)
    · exact ih (processFile ctx st g) hab f hf'

/-- Every event the pass-through phase emits is the copy of a walked
file that is not in the filtered list, with the source bytes written
verbatim at the globally substituted path. -/
theorem copyPhase_events (ctx : Ctx) (filtered files : List Str) :
    ∀ ev ∈ copyPhase ctx filtered files, ∃ g, filtered.contains g = false ∧ g ∈ files ∧
      ev = Event.copy g (dirname (replaceAll ctx.repo_path ctx.translated_repo_path g))
        (replaceAll ctx.repo_path ctx.translated_repo_path g) (ctx.content g) := by
  intro ev hev
  simp only [copyPhase, List.mem_filterMap] at hev
  obtain ⟨g, hg, hsome⟩ := hev
  by_cases hcon : filtered.contains g
  · rw [if_pos hcon] at hsome
    exact absurd hsome (by simp)
  · rw [if_neg hcon] at hsome
    exact ⟨g, by simpa using hcon, hg, (Option.some.inj hsome).symm⟩

theorem copyPhase_mem (ctx : Ctx) (filtered files : List Str) (f : Str)
    (h1 : f ∈ files) (h2 : ¬ filtered.contains f = true) :
    Event.copy f (dirname (replaceAll ctx.repo_path ctx.translated_repo_path f))
      (replaceAll ctx.repo_path ctx.translated_repo_path f) (ctx.content f)
      ∈ copyPhase ctx filtered files := by
  simp only [copyPhase, List.mem_filterMap]
  exact ⟨f, h1, by rw [if_neg h2]⟩

theorem copyPhase_recordsOf (ctx : Ctx) (filtered files : List Str) :
    recordsOf (copyPhase ctx filtered files) = [] := by
  rw [recordsOf, List.filterMap_eq_nil_iff]
  intro ev hev
  obtain ⟨g, -, -, rfl⟩ := copyPhase_events ctx filtered files ev hev
  rfl

theorem copyPhase_writeSrcsOf (ctx : Ctx) (filtered files : List Str) :
    writeSrcsOf (copyPhase ctx filtered files) = [] := by
  rw [writeSrcsOf, List.filterMap_eq_nil_iff]
  intro ev hev
  obtain ⟨g, -, -, rfl⟩ := copyPhase_events ctx filtered files ev hev
  rfl

theorem copyPhase_not_call (ctx : Ctx) (filtered files : List Str) (g c : Str) :
    Event.call g c ∉ copyPhase ctx filtered files := by
  intro h
  obtain ⟨g', -, -, heq⟩ := copyPhase_events ctx filtered files (Event.call g c) h
  simp at heq

theorem copyPhase_not_metaWrite (ctx : Ctx) (filtered files : List Str) :
    Event.metaWrite ∉ copyPhase ctx filtered files := by
  intro h
  obtain ⟨g', -, -, heq⟩ := copyPhase_events ctx filtered files Event.metaWrite h
  simp at heq

theorem copyPhase_not_skip (ctx : Ctx) (filtered files : List Str) (g : Str) :
    Event.skip g ∉ copyPhase ctx filtered files := by
  intro h
  obtain ⟨g', -, -, heq⟩ := copyPhase_events ctx filtered files (Event.skip g) h
  simp at heq

theorem copyPhase_not_write (ctx : Ctx) (filtered files : List Str) (g o d : Str) :
    Event.write g o d ∉ copyPhase ctx filtered files := by
  intro h
  obtain ⟨g', -, -, heq⟩ := copyPhase_events ctx filtered files (Event.write g o d) h
  simp at heq

theorem copyPhase_not_emptyCopy (ctx : Ctx) (filtered files : List Str) (g o : Str) :
    Event.emptyCopy g o ∉ copyPhase ctx filtered files := by
  intro h
  obtain ⟨g', -, -, heq⟩ := copyPhase_events ctx filtered files (Event.emptyCopy g o) h
  simp at heq

theorem initState_trace (ctx : Ctx) (flt : Filter) (files : List Str)
    (meta0 : TranslationMeta) (commit : Str) :
    (initState ctx flt files meta0 commit).trace =
      copyPhase ctx (filteredFiles flt files) files := rfl

theorem initState_meta_files (ctx : Ctx) (flt : Filter) (files : List Str)
    (meta0 : TranslationMeta) (commit : Str) :
    (initState ctx flt files meta0 commit).meta.files = meta0.files := rfl

/-- Unfolded form of run: its components come from the loop started on
the filtered files after the pass-through phase. -/
theorem run_def (config : TranslationConfig) (files : List Str) (content : Str → Str)
    (meta0 : TranslationMeta) (commit : Str) (sha : Str → Str)
    (translate : Str → Option Str) (clock : Nat → Nat) :
    run config files content meta0 commit sha translate clock =
      { filtered := filteredFiles config.filter files,
        meta := (runLoop (mkCtx config content sha translate clock)
          (filteredFiles config.filter files)
          (initState (mkCtx config content sha translate clock) config.filter files meta0 commit)).meta,
        disk := (runLoop (mkCtx config content sha translate clock)
          (filteredFiles config.filter files)
          (initState (mkCtx config content sha translate clock) config.filter files meta0 commit)).disk,
        translated_count := (runLoop (mkCtx config content sha translate clock)
          (filteredFiles config.filter files)
          (initState (mkCtx config content sha translate clock) config.filter files meta0 commit)).translated_count,
        trace := (runLoop (mkCtx config content sha translate clock)
          (filteredFiles config.filter files)
          (initState (mkCtx config content sha translate clock) config.filter files meta0 commit)).trace,
        aborted := (runLoop (mkCtx config content sha translate clock)
          (filteredFiles config.filter files)
          (initState (mkCtx config content sha translate clock) config.filter files meta0 commit)).aborted } :=
  rfl

/-- Consequences of the loop characterisation at the level of run. -/
theorem run_spec (config : TranslationConfig) (files : List Str) (content : Str → Str)
    (meta0 : TranslationMeta) (commit : Str) (sha : Str → Str)
    (translate : Str → Option Str) (clock : Nat → Nat) :
    ∃ Δ,
      (run config files content meta0 commit sha translate clock).trace =
        copyPhase (mkCtx config content sha translate clock)
          (filteredFiles config.filter files) files ++ Δ ∧
      (run config files content meta0 commit sha translate clock).meta.commit = commit ∧
      (run config files content meta0 commit sha translate clock).meta.files =
        meta0.files ++ recordsOf Δ ∧
      (run config files content meta0 commit sha translate clock).disk.files =
        (run config files content meta0 commit sha translate clock).meta.files ∧
      (∀ ev ∈ Δ, ∀ g, ev.srcOf = some g → g ∈ filteredFiles config.filter files) ∧
      (∀ e ∈ recordsOf Δ, content e.path ≠ [] ∧ e.hash = sha (content e.path)) ∧
      ((recordsOf Δ).map (fun e => (e.path, e.hash)) =
        (writeSrcsOf Δ).map (fun g => (g, sha (content g)))) ∧
      (∀ g c, Event.call g c ∈ Δ → c = content g ∧ c ≠ []) := by
  obtain ⟨Δ, h1, h2, h3, h4, h5, h6, h7⟩ :=
    runLoop_spec (mkCtx config content sha translate clock)
      (filteredFiles config.filter files)
      (initState (mkCtx config content sha translate clock) config.filter files meta0 commit)
  refine ⟨Δ, ?_, ?_, ?_, ?_, h4, ?_, ?_, ?_⟩
  · rw [run_def]; exact h1
  · rw [run_def]; exact h2
  · rw [run_def]; exact h3
  · rw [run_def]
    exact runLoop_disk_files _ _ _ rfl
  · intro e he
    exact h5 e he
  · exact h6
  · exact h7

/-- The executable substring test agrees with the infix relation. -/
theorem containsStr_iff (hay needle : Str) :
    containsStr hay needle = true ↔ needle <:+: hay := by
  induction hay with
  | nil =>
    simp only [containsStr, List.isEmpty_iff]
    constructor
    · rintro rfl; exact List.infix_rfl
    · rintro ⟨s, t, hst⟩
      rcases List.append_eq_nil.1 hst with ⟨h1, h2⟩
      exact (List.append_eq_nil.1 h1).2
  | cons c t ih =>
    simp only [containsStr, Bool.or_eq_true, List.isPrefixOf_iff_prefix, ih,
      List.infix_cons_iff]

theorem mem_of_mem_recordsOf {t : List Event} {e : FileEntry}
    (h : e ∈ recordsOf t) : Event.record e ∈ t := by
  simp only [recordsOf, List.mem_filterMap] at h
  obtain ⟨ev, hev, hm⟩ := h
  cases ev <;> simp_all

/-- Membership in the filtered file list, characterised: the path is a
walked file, some parsed suffix token is a raw suffix of it, and no
exclude entry is a substring of it. -/
theorem mem_filteredFiles (flt : Filter) (files : List Str) (f : Str) :
    f ∈ filteredFiles flt files ↔
      f ∈ files ∧ (∃ s ∈ prase_target_suffix flt.target, s <:+ f) ∧
        ¬ ∃ e ∈ flt.exclude, e <:+: f := by
  simp [filteredFiles, List.mem_filter, List.any_eq_true, List.isSuffixOf_iff_suffix,
    containsStr_iff]

theorem splitOn_space_cons_sep (r : List Char) :
    (' ' :: r).splitOn ' ' = [] :: r.splitOn ' ' := by
  simp [List.splitOn, List.splitOnP_cons]

theorem splitOn_space_cons_ne (x : Char) (hx : ¬ x = ' ') (r : List Char) :
    (x :: r).splitOn ' ' = (r.splitOn ' ').modifyHead (List.cons x) := by
  simp [List.splitOn, List.splitOnP_cons, hx]

theorem splitOn_space_trailing (xs : List Char) :
    ∃ L, L ≠ [] ∧ (xs ++ [' ']).splitOn ' ' = L ++ [[]] := by
  induction xs with
  | nil =>
    refine ⟨[[]], by simp, ?_⟩
    rw [List.nil_append, splitOn_space_cons_sep]
    simp [List.splitOn]
  | cons x xs ih =>
    obtain ⟨L, hL, hEq⟩ := ih
    by_cases hx : x = ' '
    · subst hx
      refine ⟨[] :: L, by simp, ?_⟩
      rw [List.cons_append, splitOn_space_cons_sep, hEq]
      simp
    · obtain ⟨h, t, rfl⟩ : ∃ h t, L = h :: t := by
        cases L with
        | nil => exact absurd rfl hL
        | cons h t => exact ⟨h, t, rfl⟩
      refine ⟨(x :: h) :: t, by simp, ?_⟩
      rw [List.cons_append, splitOn_space_cons_ne x hx, hEq, List.cons_append,
        List.modifyHead_cons]
      simp

theorem splitOn_space_double (xs ys : List Char) :
    ∃ h t, (xs ++ ' ' :: ' ' :: ys).splitOn ' ' = h :: t ∧ [] ∈ t := by
  induction xs with
  | nil =>
    rw [List.nil_append, splitOn_space_cons_sep, splitOn_space_cons_sep]
    exact ⟨[], [] :: ys.splitOn ' ', rfl, by simp⟩
  | cons x xs ih =>
    obtain ⟨h, t, hEq, hmem⟩ := ih
    by_cases hx : x = ' '
    · subst hx
      rw [List.cons_append, splitOn_space_cons_sep, hEq]
      exact ⟨[], h :: t, rfl, List.mem_cons_of_mem h hmem⟩
    · rw [List.cons_append, splitOn_space_cons_ne x hx, hEq, List.modifyHead_cons]
      exact ⟨x :: h, t, rfl, hmem⟩

theorem prase_eq_stripped (target : Str) :
    prase_target_suffix target = (stripStarsDots target).splitOn ' ' := rfl

theorem stripStarsDots_append (a b : Str) :
    stripStarsDots (a ++ b) = stripStarsDots a ++ stripStarsDots b := by
  simp [stripStarsDots, List.filter_append]

theorem stripStarsDots_space_cons (r : Str) :
    stripStarsDots (' ' :: r) = ' ' :: stripStarsDots r := by
  simp [stripStarsDots, List.filter_cons]

/-- An empty target, a leading or trailing space, or two consecutive
spaces in the target put the empty token into the parsed suffix list. -/
theorem nil_mem_prase (target : Str)
    (h : target = [] ∨ (∃ l r, target = l ++ ' ' :: ' ' :: r) ∨
      (∃ r, target = ' ' :: r) ∨ ∃ l, target = l ++ [' ']) :
    [] ∈ prase_target_suffix target := by
  rcases h with rfl | ⟨l, r, rfl⟩ | ⟨r, rfl⟩ | ⟨l, rfl⟩
  · decide
  · rw [prase_eq_stripped, stripStarsDots_append, stripStarsDots_space_cons,
      stripStarsDots_space_cons]
    obtain ⟨h, t, hEq, hmem⟩ := splitOn_space_double (stripStarsDots l) (stripStarsDots r)
    rw [hEq]
    exact List.mem_cons_of_mem h hmem
  · rw [prase_eq_stripped, stripStarsDots_space_cons, splitOn_space_cons_sep]
    exact List.mem_cons_self _ _
  · rw [prase_eq_stripped, stripStarsDots_append]
    have hsp : stripStarsDots [' '] = [' '] := by decide
    rw [hsp]
    obtain ⟨L, hL, hEq⟩ := splitOn_space_trailing (stripStarsDots l)
    rw [hEq]
    exact List.mem_append_right L (by simp)

/-- The loop preserves the invariant that no two metadata entries agree
on both path and hash: the guard appends only unmatched pairs. -/
theorem runLoop_pairs_nodup (ctx : Ctx) (l : List Str) (st : RunState)
    (h : (st.meta.files.map fun e => (e.path, e.hash)).Nodup) :
    ((runLoop ctx l st).meta.files.map fun e => (e.path, e.hash)).Nodup := by
  induction l generalizing st with
  | nil => exact h
  | cons f l ih =>
    rw [runLoop_cons]
    apply ih
    by_cases hab : st.aborted = true
    · rw [processFile_of_aborted hab]; exact h
    have hab' : st.aborted = false := by simpa using hab
    by_cases hm : (st.meta.files.any fun e => e.path == f && e.hash == ctx.sha (ctx.content f)) = true
    · rw [processFile_skip hab' hm]; exact h
    have hm' : (st.meta.files.any fun e => e.path == f && e.hash == ctx.sha (ctx.content f)) = false := by
      simpa using hm
    by_cases hc : ctx.content f = []
    · rw [processFile_empty hab' hm' hc]; exact h
    cases ht : ctx.translate (ctx.content f) with
    | none => rw [processFile_fail hab' hm' hc ht]; exact h
    | some t =>
      rw [processFile_ok hab' hm' hc ht]
      show ((st.meta.files ++
        [(⟨f, ctx.sha (ctx.content f), ctx.clock st.ticks⟩ : FileEntry)]).map
          fun e => (e.path, e.hash)).Nodup
      rw [List.map_append]
      refine List.nodup_append.2 ⟨h, by simp, ?_⟩
      intro p hp hq
      simp only [List.map_cons, List.map_nil, List.mem_singleton] at hq
      subst hq
      obtain ⟨e, he, hpe⟩ := List.mem_map.1 hp
      simp only [Prod.mk.injEq] at hpe
      exact absurd ((any_match_iff _ _ _).2 ⟨e, he, hpe.1, hpe.2⟩) (by simp [hm'])

/-- A run over files that are all already matched by the loaded metadata
or empty changes nothing durable: metadata untouched in memory and on
disk, nothing aborted, every translatable file counted as already
translated, and no backend call, no record, no output write into the
translated set, no metadata persist. -/
theorem run_covered (config : TranslationConfig) (files : List Str) (content : Str → Str)
    (meta0 : TranslationMeta) (commit : Str) (sha : Str → Str)
    (translate : Str → Option Str) (clock : Nat → Nat)
    (hcov : ∀ f ∈ filteredFiles config.filter files,
      (∃ e ∈ meta0.files, e.path = f ∧ e.hash = sha (content f)) ∨ content f = []) :
    (run config files content meta0 commit sha translate clock).meta.files = meta0.files ∧
    (run config files content meta0 commit sha translate clock).meta.commit = commit ∧
    (run config files content meta0 commit sha translate clock).disk = meta0 ∧
    (run config files content meta0 commit sha translate clock).aborted = false ∧
    (run config files content meta0 commit sha translate clock).translated_count =
      (filteredFiles config.filter files).length ∧
    (∀ g c, Event.call g c ∉ (run config files content meta0 commit sha translate clock).trace) ∧
    recordsOf (run config files content meta0 commit sha translate clock).trace = [] ∧
    Event.metaWrite ∉ (run config files content meta0 commit sha translate clock).trace ∧
    (∀ g o d, Event.write g o d ∉ (run config files content meta0 commit sha translate clock).trace) := by
  obtain ⟨h1, h2, h3, h4, Δ, h5, h6⟩ :=
    runLoop_covered (mkCtx config content sha translate clock)
      (filteredFiles config.filter files)
      (initState (mkCtx config content sha translate clock) config.filter files meta0 commit)
      rfl hcov
  rw [run_def]
  refine ⟨?_, ?_, ?_, ?_, ?_, ?_, ?_, ?_, ?_⟩
  · rw [h1]; rfl
  · rw [h1]; rfl
  · rw [h2]; rfl
  · exact h3
  · rw [h4]; simp [initState]
  · intro g c hmem
    rw [h5] at hmem
    rcases List.mem_append.1 hmem with hmem | hmem
    · exact copyPhase_not_call _ _ _ g c hmem
    · rcases h6 _ hmem with ⟨g', hg⟩ | ⟨g', d', hg⟩ | ⟨g', o', hg⟩ <;> simp at hg
  · rw [h5, initState_trace, recordsOf_append, copyPhase_recordsOf, List.nil_append, recordsOf,
      List.filterMap_eq_nil_iff]
    intro ev hev
    rcases h6 ev hev with ⟨g', hg⟩ | ⟨g', d', hg⟩ | ⟨g', o', hg⟩ <;> subst hg <;> rfl
  · intro hmem
    rw [h5] at hmem
    rcases List.mem_append.1 hmem with hmem | hmem
    · exact copyPhase_not_metaWrite _ _ _ hmem
    · rcases h6 _ hmem with ⟨g', hg⟩ | ⟨g', d', hg⟩ | ⟨g', o', hg⟩ <;> simp at hg
  · intro g o d hmem
    rw [h5] at hmem
    rcases List.mem_append.1 hmem with hmem | hmem
    · exact copyPhase_not_write _ _ _ g o d hmem
    · rcases h6 _ hmem with ⟨g', hg⟩ | ⟨g', d', hg⟩ | ⟨g', o', hg⟩ <;> simp at hg

/-- After a run that did not abort, every translatable file is either
empty or matched by an entry of the final in-memory metadata. -/
theorem run_coverage (config : TranslationConfig) (files : List Str) (content : Str → Str)
    (meta0 : TranslationMeta) (commit : Str) (sha : Str → Str)
    (translate : Str → Option Str) (clock : Nat → Nat)
    (hab : (run config files content meta0 commit sha translate clock).aborted = false) :
    ∀ f ∈ filteredFiles config.filter files, content f = [] ∨
      ∃ e ∈ (run config files content meta0 commit sha translate clock).meta.files,
        e.path = f ∧ e.hash = sha (content f) := by
  rw [run_def] at hab ⊢
  exact runLoop_coverage _ _ _ hab

/-- The loop emits the emptyCopy event for every file it reaches whose
content is empty and which no entry of the starting metadata matches. -/
theorem runLoop_empty_emits (ctx : Ctx) (l : List Str) (st : RunState) (f : Str)
    (hf : f ∈ l)
    (hab : (runLoop ctx l st).aborted = false)
    (hc : ctx.content f = [])
    (hnm : ¬ ∃ e ∈ st.meta.files, e.path = f ∧ e.hash = ctx.sha (ctx.content f)) :
    Event.emptyCopy f (replaceAll ctx.repo_path ctx.translated_repo_path f)
      ∈ (runLoop ctx l st).trace := by
  obtain ⟨l₁, l₂, rfl⟩ := List.append_of_mem hf
  rw [runLoop_append, runLoop_cons] at hab ⊢
  have hab2 : (processFile ctx (runLoop ctx l₁ st) f).aborted = false :=
    aborted_of_runLoop hab
  have hab1 : (runLoop ctx l₁ st).aborted = false := aborted_of_processFile hab2
  obtain ⟨Δ₁, q1, q2, q3, q4, q5, q6, q7⟩ := runLoop_spec ctx l₁ st
  have hm' : ((runLoop ctx l₁ st).meta.files.any
      fun e => e.path == f && e.hash == ctx.sha (ctx.content f)) = false := by
    by_contra hcon
    have hcon' : ((runLoop ctx l₁ st).meta.files.any
        fun e => e.path == f && e.hash == ctx.sha (ctx.content f)) = true := by
      simpa using hcon
    obtain ⟨e, he, hep, heh⟩ := (any_match_iff _ _ _).1 hcon'
    rw [q3] at he
    rcases List.mem_append.1 he with he | he
    · exact hnm ⟨e, he, hep, heh⟩
    · have hne := (q5 e he).1
      rw [hep, hc] at hne
      exact hne rfl
  rw [processFile_empty hab1 hm' hc]
  obtain ⟨Δ₂, r1, -⟩ := runLoop_spec ctx l₂
    { runLoop ctx l₁ st with
      translated_count := (runLoop ctx l₁ st).translated_count + 1,
      trace := (runLoop ctx l₁ st).trace ++
        [Event.mkdir f (dirname (replaceAll ctx.repo_path ctx.translated_repo_path f)),
         Event.emptyCopy f (replaceAll ctx.repo_path ctx.translated_repo_path f)] }
  rw [r1]
  exact List.mem_append_left _ (List.mem_append_right _ (by simp))

/-- Skip characterisation for a loop over distinct files whose starting
trace concerns none of them: a file is skipped exactly when the starting
metadata matches its current hash, and a skipped file contributes no
other event to the trace. -/
theorem runLoop_skip_iff (ctx : Ctx) (l : List Str) (st : RunState) (f : Str)
    (hnd : l.Nodup) (hf : f ∈ l)
    (hab : (runLoop ctx l st).aborted = false)
    (hcp : ∀ ev ∈ st.trace, ∀ g, ev.srcOf = some g → g ∉ l) :
    (Event.skip f ∈ (runLoop ctx l st).trace ↔
      ∃ e ∈ st.meta.files, e.path = f ∧ e.hash = ctx.sha (ctx.content f)) ∧
    (Event.skip f ∈ (runLoop ctx l st).trace →
      ∀ ev ∈ (runLoop ctx l st).trace, ev.srcOf = some f → ev = Event.skip f) := by
  obtain ⟨l₁, l₂, rfl⟩ := List.append_of_mem hf
  have hfl : f ∈ l₁ ++ f :: l₂ := List.mem_append_right l₁ (List.mem_cons_self f l₂)
  have hnotin1 : f ∉ l₁ := by
    intro hmem
    exact (List.nodup_append.1 hnd).2.2 hmem (List.mem_cons_self f l₂)
  have hnotin2 : f ∉ l₂ := (List.nodup_cons.1 (List.nodup_append.1 hnd).2.1).1
  rw [runLoop_append, runLoop_cons] at hab ⊢
  have hab2 : (processFile ctx (runLoop ctx l₁ st) f).aborted = false :=
    aborted_of_runLoop hab
  have hab1 : (runLoop ctx l₁ st).aborted = false := aborted_of_processFile hab2
  obtain ⟨Δ₁, q1, q2, q3, q4, q5, q6, q7⟩ := runLoop_spec ctx l₁ st
  obtain ⟨Δ₂, r1, r2, r3, r4, r5, r6, r7⟩ :=
    runLoop_spec ctx l₂ (processFile ctx (runLoop ctx l₁ st) f)
  have hmeq : (∃ e ∈ (runLoop ctx l₁ st).meta.files,
      e.path = f ∧ e.hash = ctx.sha (ctx.content f)) ↔
      ∃ e ∈ st.meta.files, e.path = f ∧ e.hash = ctx.sha (ctx.content f) := by
    constructor
    · rintro ⟨e, he, hep, heh⟩
      rw [q3] at he
      rcases List.mem_append.1 he with he | he
      · exact ⟨e, he, hep, heh⟩
      · exfalso
        have hpth : e.path ∈ l₁ := q4 _ (mem_of_mem_recordsOf he) e.path rfl
        rw [hep] at hpth
        exact hnotin1 hpth
    · rintro ⟨e, he, hep, heh⟩
      exact ⟨e, by rw [q3]; exact List.mem_append_left _ he, hep, heh⟩
  have hskip_not_l1 : Event.skip f ∉ (runLoop ctx l₁ st).trace := by
    intro h3
    rw [q1] at h3
    rcases List.mem_append.1 h3 with h4 | h4
    · exact hcp _ h4 f rfl hfl
    · exact hnotin1 (q4 _ h4 f rfl)
  by_cases hm : ((runLoop ctx l₁ st).meta.files.any
      fun e => e.path == f && e.hash == ctx.sha (ctx.content f)) = true
  · have hmatch := hmeq.1 ((any_match_iff _ _ _).1 hm)
    have hstep := processFile_skip hab1 hm
    have htr : (runLoop ctx l₂ (processFile ctx (runLoop ctx l₁ st) f)).trace =
        ((runLoop ctx l₁ st).trace ++ [Event.skip f]) ++ Δ₂ := by
      rw [r1, hstep]
    refine ⟨⟨fun _ => hmatch, fun _ => ?_⟩, ?_⟩
    · rw [htr]
      exact List.mem_append_left _ (List.mem_append_right _ (by simp))
    · intro hskip ev hmem hsrc
      rw [htr] at hmem
      rcases List.mem_append.1 hmem with hmem | hmem
      · rcases List.mem_append.1 hmem with hmem' | hmem'
        · rw [q1] at hmem'
          rcases List.mem_append.1 hmem' with h4 | h4
          · exact absurd hfl (hcp ev h4 f hsrc)
          · exact absurd (q4 ev h4 f hsrc) hnotin1
        · simpa using hmem'
      · exact absurd (r4 ev hmem f hsrc) hnotin2
  · have hm' : ((runLoop ctx l₁ st).meta.files.any
        fun e => e.path == f && e.hash == ctx.sha (ctx.content f)) = false := by
      simpa using hm
    have hnomatch : ¬ ∃ e ∈ st.meta.files, e.path = f ∧ e.hash = ctx.sha (ctx.content f) := by
      intro hx
      exact absurd ((any_match_iff _ _ _).2 (hmeq.2 hx)) (by simp [hm'])
    have hnskip : Event.skip f ∉
        (runLoop ctx l₂ (processFile ctx (runLoop ctx l₁ st) f)).trace := by
      intro hskip
      rw [r1] at hskip
      rcases List.mem_append.1 hskip with hmem | hmem
      · by_cases hc : ctx.content f = []
        · rw [processFile_empty hab1 hm' hc] at hmem
          have hmem' : Event.skip f ∈ (runLoop ctx l₁ st).trace ++
              [Event.mkdir f (dirname (replaceAll ctx.repo_path ctx.translated_repo_path f)),
               Event.emptyCopy f (replaceAll ctx.repo_path ctx.translated_repo_path f)] := hmem
          rcases List.mem_append.1 hmem' with h3 | h3
          · exact hskip_not_l1 h3
          · simp at h3
        · cases ht : ctx.translate (ctx.content f) with
          | none =>
            have habt : (processFile ctx (runLoop ctx l₁ st) f).aborted = true := by
              rw [processFile_fail hab1 hm' hc ht]
            rw [habt] at hab2
            exact absurd hab2 (by simp)
          | some t =>
            rw [processFile_ok hab1 hm' hc ht] at hmem
            have hmem' : Event.skip f ∈ (runLoop ctx l₁ st).trace ++
                [Event.mkdir f (dirname (replaceAll ctx.repo_path ctx.translated_repo_path f)),
                 Event.call f (ctx.content f),
                 Event.write f (replaceAll ctx.repo_path ctx.translated_repo_path f) t,
                 Event.record { path := f, hash := ctx.sha (ctx.content f),
                                translation_timestamp := ctx.clock (runLoop ctx l₁ st).ticks },
                 Event.metaWrite] := hmem
            rcases List.mem_append.1 hmem' with h3 | h3
            · exact hskip_not_l1 h3
            · simp at h3
      · exact absurd (r4 _ hmem f rfl) hnotin2
    exact ⟨⟨fun hskip => absurd hskip hnskip, fun hx => absurd hx hnomatch⟩,
      fun hskip => absurd hskip hnskip⟩

/-! ### The claims -/

/-- C1 counterexample.  A run over a single translatable file whose
content is empty and which is absent from the loaded metadata: the run
classifies the file as translatable, writes the empty output file, but
records NO entry at all in the metadata files list, in memory or on
disk, contradicting the claim that the file is recorded with the hash of
the empty input. -/
theorem C1_counterexample :
    (str "./workspace/r/a.md") ∈ rC1.filtered ∧
    rC1.aborted = false ∧
    Event.emptyCopy (str "./workspace/r/a.md") (str "./workspace/r-translated/a.md")
      ∈ rC1.trace ∧
    rC1.meta.files = [] ∧
    rC1.disk.files = [] := by
  decide

/-- C1 (amended): for every translatable file whose content is empty and
which no entry of the loaded metadata matches, a run that does not abort
writes a zero-byte file at the corresponding output path, makes no
translation-backend call for it, and does NOT record the file in the
metadata files list (any metadata entry for that path predates the run);
the hash the lookup used equals the SHA-256 of empty input. -/
theorem C1_empty_file_written_not_recorded (config : TranslationConfig) (files : List Str)
    (content : Str → Str) (meta0 : TranslationMeta) (commit : Str) (sha : Str → Str)
    (translate : Str → Option Str) (clock : Nat → Nat) (f : Str)
    (hf : f ∈ filteredFiles config.filter files)
    (hc : content f = [])
    (hnm : ¬ ∃ e ∈ meta0.files, e.path = f ∧ e.hash = sha (content f))
    (hab : (run config files content meta0 commit sha translate clock).aborted = false) :
    Event.emptyCopy f (replaceAll (repo_path config.repo) (translated_repo_path config.repo) f)
      ∈ (run config files content meta0 commit sha translate clock).trace ∧
    (∀ c, Event.call f c ∉ (run config files content meta0 commit sha translate clock).trace) ∧
    (∀ e ∈ (run config files content meta0 commit sha translate clock).meta.files,
      e.path = f → e ∈ meta0.files) ∧
    sha (content f) = sha [] := by
  obtain ⟨Δ, s1, s2, s3, s4, s5, s6, s7, s8⟩ :=
    run_spec config files content meta0 commit sha translate clock
  refine ⟨?_, ?_, ?_, by rw [hc]⟩
  · rw [run_def] at hab ⊢
    exact runLoop_empty_emits _ _ _ f hf hab hc hnm
  · intro c hmem
    rw [s1] at hmem
    rcases List.mem_append.1 hmem with hmem | hmem
    · exact copyPhase_not_call _ _ _ f c hmem
    · obtain ⟨hcc, hcne⟩ := s8 f c hmem
      rw [hcc, hc] at hcne
      exact hcne rfl
  · intro e he hpath
    rw [s3] at he
    rcases List.mem_append.1 he with he | he
    · exact he
    · have hne := (s6 e he).1
      rw [hpath, hc] at hne
      exact absurd rfl hne

/-- C1 witness: the amended statement applied to the concrete
one-empty-file run. -/
theorem C1_witness :
    ((str "./workspace/r/a.md") ∈ filteredFiles cfgMd.filter [str "./workspace/r/a.md"] ∧
     (fun _ => ([] : Str)) (str "./workspace/r/a.md") = [] ∧
     ¬ (∃ e ∈ (⟨str "old", []⟩ : TranslationMeta).files,
        e.path = str "./workspace/r/a.md" ∧
        e.hash = shaH ((fun _ => ([] : Str)) (str "./workspace/r/a.md"))) ∧
     rC1.aborted = false) ∧
    (Event.emptyCopy (str "./workspace/r/a.md")
        (replaceAll (repo_path cfgMd.repo) (translated_repo_path cfgMd.repo)
          (str "./workspace/r/a.md")) ∈ rC1.trace ∧
     (∀ c, Event.call (str "./workspace/r/a.md") c ∉ rC1.trace) ∧
     (∀ e ∈ rC1.meta.files, e.path = str "./workspace/r/a.md" →
        e ∈ (⟨str "old", []⟩ : TranslationMeta).files) ∧
     shaH ((fun _ => ([] : Str)) (str "./workspace/r/a.md")) = shaH []) :=
  ⟨⟨by decide, rfl, by decide, by decide⟩,
    C1_empty_file_written_not_recorded cfgMd [str "./workspace/r/a.md"] (fun _ => [])
      ⟨str "old", []⟩ (str "new") shaH trT clk0 (str "./workspace/r/a.md")
      (by decide) rfl (by decide) (by decide)⟩

/-- C2 counterexample.  A completed run in which the only translatable
file is already recorded: nothing is newly translated, the loop ends,
and NO metadata write happens at all, so the on-disk record still holds
the pre-run commit, not the updated one, contradicting the claim that
the record with the updated commit is written once more at end of run. -/
theorem C2_counterexample :
    rC2.filtered = [str "./workspace/r/a.md"] ∧
    rC2.aborted = false ∧
    rC2.translated_count = 1 ∧
    Event.metaWrite ∉ rC2.trace ∧
    rC2.meta.commit = str "new" ∧
    rC2.disk.commit = str "old" ∧
    ¬ rC2.disk.commit = str "new" := by
  decide

/-- C2 (amended): metadata is persisted only inside the per-file loop,
after a successful translation; there is no end-of-run write.  A run in
which every translatable file is skipped or empty (so no file is newly
translated) performs no metadata write whatsoever and leaves the on-disk
record, commit field included, exactly as loaded; the commit field is
updated only in memory. -/
theorem C2_no_final_meta_write (config : TranslationConfig) (files : List Str)
    (content : Str → Str) (meta0 : TranslationMeta) (commit : Str) (sha : Str → Str)
    (translate : Str → Option Str) (clock : Nat → Nat)
    (hcov : ∀ f ∈ filteredFiles config.filter files,
      (∃ e ∈ meta0.files, e.path = f ∧ e.hash = sha (content f)) ∨ content f = []) :
    (run config files content meta0 commit sha translate clock).disk = meta0 ∧
    Event.metaWrite ∉ (run config files content meta0 commit sha translate clock).trace ∧
    (run config files content meta0 commit sha translate clock).meta.commit = commit := by
  obtain ⟨-, h2, h3, -, -, -, -, h8, -⟩ :=
    run_covered config files content meta0 commit sha translate clock hcov
  exact ⟨h3, h8, h2⟩

/-- C2 witness: the amended statement applied to the concrete run whose
only translatable file is already recorded. -/
theorem C2_witness :
    (∀ f ∈ filteredFiles cfgMd.filter [str "./workspace/r/a.md"],
      (∃ e ∈ (⟨str "old", [⟨str "./workspace/r/a.md", shaH (str "hi"), 7⟩]⟩ :
          TranslationMeta).files,
        e.path = f ∧ e.hash = shaH ((fun _ => str "hi") f)) ∨
      (fun _ => str "hi") f = []) ∧
    (rC2.disk = ⟨str "old", [⟨str "./workspace/r/a.md", shaH (str "hi"), 7⟩]⟩ ∧
     Event.metaWrite ∉ rC2.trace ∧
     rC2.meta.commit = str "new") :=
  ⟨by decide,
    C2_no_final_meta_write cfgMd [str "./workspace/r/a.md"] (fun _ => str "hi")
      ⟨str "old", [⟨str "./workspace/r/a.md", shaH (str "hi"), 7⟩]⟩ (str "new")
      shaH trT clk0 (by decide)⟩

/-- C5: a discovered file is translatable iff some suffix token parsed
from the target (stars and dots deleted, split at spaces) is a raw
string suffix of its path and no exclude entry is a substring of its
path; for target *.md *.txt the tokens are exactly md and txt,
docs/readme.md and notes.xmd are candidates and notes.mdx is not. -/
theorem C5_filter_classification :
    (∀ (flt : Filter) (files : List Str) (f : Str),
      f ∈ filteredFiles flt files ↔
        f ∈ files ∧ (∃ s ∈ prase_target_suffix flt.target, s <:+ f) ∧
          ¬ ∃ e ∈ flt.exclude, e <:+: f) ∧
    prase_target_suffix (str "*.md *.txt") = [str "md", str "txt"] ∧
    filteredFiles ⟨str "*.md *.txt", [], []⟩
        [str "docs/readme.md", str "notes.mdx", str "notes.xmd"] =
      [str "docs/readme.md", str "notes.xmd"] :=
  ⟨mem_filteredFiles, by decide, by decide⟩

/-- C9: the include list of the filter is never read: two runs whose
configurations differ only in that field produce identical results
(classification, trace of copies, calls and writes, counts, metadata in
memory and on disk). -/
theorem C9_include_irrelevant (config : TranslationConfig) (inc1 inc2 : List Str)
    (files : List Str) (content : Str → Str) (meta0 : TranslationMeta) (commit : Str)
    (sha : Str → Str) (translate : Str → Option Str) (clock : Nat → Nat) :
    run { config with filter := { config.filter with include' := inc1 } }
        files content meta0 commit sha translate clock =
      run { config with filter := { config.filter with include' := inc2 } }
        files content meta0 commit sha translate clock := rfl

/-- C10: an empty target, a leading or trailing space, or two
consecutive spaces in the target put the empty string among the parsed
suffix tokens, and then every discovered file is a candidate, so
classification is decided by the exclude list alone. -/
theorem C10_blank_target_matches_everything (target : Str)
    (h : target = [] ∨ (∃ l r, target = l ++ ' ' :: ' ' :: r) ∨
      (∃ r, target = ' ' :: r) ∨ ∃ l, target = l ++ [' ']) :
    [] ∈ prase_target_suffix target ∧
    ∀ (inc exc : List Str) (files : List Str) (f : Str),
      f ∈ filteredFiles ⟨target, inc, exc⟩ files ↔
        f ∈ files ∧ ¬ ∃ e ∈ exc, e <:+: f := by
  have hmem := nil_mem_prase target h
  refine ⟨hmem, ?_⟩
  intro inc exc files f
  rw [mem_filteredFiles]
  constructor
  · rintro ⟨h1, -, h3⟩
    exact ⟨h1, h3⟩
  · rintro ⟨h1, h3⟩
    exact ⟨h1, ⟨[], hmem, List.nil_suffix⟩, h3⟩

/-- C10 witness: the empty target applied to the theorem. -/
theorem C10_witness :
    ((str "") = [] ∨ (∃ l r, str "" = l ++ ' ' :: ' ' :: r) ∨
      (∃ r, str "" = ' ' :: r) ∨ ∃ l, str "" = l ++ [' ']) ∧
    ([] ∈ prase_target_suffix (str "") ∧
      ∀ (inc exc : List Str) (files : List Str) (f : Str),
        f ∈ filteredFiles ⟨str "", inc, exc⟩ files ↔
          f ∈ files ∧ ¬ ∃ e ∈ exc, e <:+: f) :=
  ⟨Or.inl rfl, C10_blank_target_matches_everything (str "") (Or.inl rfl)⟩

/-- C3: in a run that does not abort, over walked files with distinct
paths, a translatable file is skipped (a skip event appears for it) if
and only if the metadata loaded for the run contains an entry whose path
is the file and whose hash is the digest of its current content; and a
skipped file contributes no other event — no backend call, no output
write, no copy, no record — to the run. -/
theorem C3_skip_iff_loaded_match (config : TranslationConfig) (files : List Str)
    (content : Str → Str) (meta0 : TranslationMeta) (commit : Str) (sha : Str → Str)
    (translate : Str → Option Str) (clock : Nat → Nat) (f : Str)
    (hnd : files.Nodup)
    (hf : f ∈ filteredFiles config.filter files)
    (hab : (run config files content meta0 commit sha translate clock).aborted = false) :
    (Event.skip f ∈ (run config files content meta0 commit sha translate clock).trace ↔
      ∃ e ∈ meta0.files, e.path = f ∧ e.hash = sha (content f)) ∧
    (Event.skip f ∈ (run config files content meta0 commit sha translate clock).trace →
      ∀ ev ∈ (run config files content meta0 commit sha translate clock).trace,
        ev.srcOf = some f → ev = Event.skip f) := by
  rw [run_def] at hab ⊢
  have hndf : (filteredFiles config.filter files).Nodup := List.Nodup.filter _ hnd
  have hcp : ∀ ev ∈ (initState (mkCtx config content sha translate clock)
        config.filter files meta0 commit).trace,
      ∀ g, ev.srcOf = some g → g ∉ filteredFiles config.filter files := by
    intro ev hev g hsrc
    obtain ⟨g', hcon, -, rfl⟩ := copyPhase_events _ _ _ ev hev
    simp only [Event.srcOf, Option.some.injEq] at hsrc
    subst hsrc
    intro hmem
    have hc2 : (filteredFiles config.filter files).contains g' = true :=
      List.elem_eq_true_of_mem hmem
    rw [hcon] at hc2
    exact absurd hc2 (by simp)
  exact runLoop_skip_iff (mkCtx config content sha translate clock)
    (filteredFiles config.filter files)
    (initState (mkCtx config content sha translate clock) config.filter files meta0 commit)
    f hndf hf hab hcp

/-- C3 witness: a concrete run whose single translatable file is
already recorded with the hash of its current content. -/
theorem C3_witness :
    (([str "./workspace/r/a.md"] : List Str).Nodup ∧
     (str "./workspace/r/a.md") ∈ filteredFiles cfgMd.filter [str "./workspace/r/a.md"] ∧
     rC2.aborted = false) ∧
    ((Event.skip (str "./workspace/r/a.md") ∈ rC2.trace ↔
       ∃ e ∈ (⟨str "old", [⟨str "./workspace/r/a.md", shaH (str "hi"), 7⟩]⟩ :
           TranslationMeta).files,
         e.path = str "./workspace/r/a.md" ∧
         e.hash = shaH ((fun _ => str "hi") (str "./workspace/r/a.md"))) ∧
     (Event.skip (str "./workspace/r/a.md") ∈ rC2.trace →
       ∀ ev ∈ rC2.trace, ev.srcOf = some (str "./workspace/r/a.md") →
         ev = Event.skip (str "./workspace/r/a.md"))) :=
  ⟨⟨by decide, by decide, by decide⟩,
    C3_skip_iff_loaded_match cfgMd [str "./workspace/r/a.md"] (fun _ => str "hi")
      ⟨str "old", [⟨str "./workspace/r/a.md", shaH (str "hi"), 7⟩]⟩ (str "new")
      shaH trT clk0 (str "./workspace/r/a.md") (by decide) (by decide) (by decide)⟩

/-- C4: after the loop has processed any prefix of the filtered files,
the metadata on disk holds exactly the entries loaded at run start plus
one appended FileEntry per successful translation so far, in order, each
carrying the digest of the translated file's content; the same holds of
the completed (or aborted) run, so a run whose (N+1)-th backend call
fails persists exactly the first N new entries. -/
theorem C4_incremental_meta_persist (config : TranslationConfig) (files : List Str)
    (content : Str → Str) (meta0 : TranslationMeta) (commit : Str) (sha : Str → Str)
    (translate : Str → Option Str) (clock : Nat → Nat) (l₁ l₂ : List Str)
    (hsplit : filteredFiles config.filter files = l₁ ++ l₂) :
    ((runLoop (mkCtx config content sha translate clock) l₁
        (initState (mkCtx config content sha translate clock)
          config.filter files meta0 commit)).disk.files =
      meta0.files ++ recordsOf (runLoop (mkCtx config content sha translate clock) l₁
        (initState (mkCtx config content sha translate clock)
          config.filter files meta0 commit)).trace ∧
     (recordsOf (runLoop (mkCtx config content sha translate clock) l₁
        (initState (mkCtx config content sha translate clock)
          config.filter files meta0 commit)).trace).map (fun e => (e.path, e.hash)) =
       (writeSrcsOf (runLoop (mkCtx config content sha translate clock) l₁
        (initState (mkCtx config content sha translate clock)
          config.filter files meta0 commit)).trace).map (fun g => (g, sha (content g)))) ∧
    ((run config files content meta0 commit sha translate clock).disk.files =
      meta0.files ++
        recordsOf (run config files content meta0 commit sha translate clock).trace ∧
     (recordsOf (run config files content meta0 commit sha translate clock).trace).map
        (fun e => (e.path, e.hash)) =
       (writeSrcsOf (run config files content meta0 commit sha translate clock).trace).map
        (fun g => (g, sha (content g)))) := by
  constructor
  · obtain ⟨Δ, q1, q2, q3, q4, q5, q6, q7⟩ :=
      runLoop_spec (mkCtx config content sha translate clock) l₁
        (initState (mkCtx config content sha translate clock) config.filter files meta0 commit)
    have hrec : recordsOf (runLoop (mkCtx config content sha translate clock) l₁
        (initState (mkCtx config content sha translate clock)
          config.filter files meta0 commit)).trace = recordsOf Δ := by
      rw [q1, recordsOf_append, initState_trace, copyPhase_recordsOf, List.nil_append]
    have hws : writeSrcsOf (runLoop (mkCtx config content sha translate clock) l₁
        (initState (mkCtx config content sha translate clock)
          config.filter files meta0 commit)).trace = writeSrcsOf Δ := by
      rw [q1, writeSrcsOf_append, initState_trace, copyPhase_writeSrcsOf, List.nil_append]
    constructor
    · rw [runLoop_disk_files _ _ _ rfl, q3, hrec, initState_meta_files]
    · rw [hrec, hws, q6]
      rfl
  · obtain ⟨Δ', s1, s2, s3, s4, s5, s6, s7, s8⟩ :=
      run_spec config files content meta0 commit sha translate clock
    have hrec : recordsOf (run config files content meta0 commit sha translate clock).trace =
        recordsOf Δ' := by
      rw [s1, recordsOf_append, copyPhase_recordsOf, List.nil_append]
    have hws : writeSrcsOf (run config files content meta0 commit sha translate clock).trace =
        writeSrcsOf Δ' := by
      rw [s1, writeSrcsOf_append, copyPhase_writeSrcsOf, List.nil_append]
    constructor
    · rw [s4, s3, hrec]
    · rw [hrec, hws, s7]

/-- C4 witness: the concrete one-file run split as the empty prefix
followed by the single translatable file. -/
theorem C4_witness :
    (filteredFiles cfgMd.filter [str "./workspace/r/a.md"] =
      [] ++ [str "./workspace/r/a.md"]) ∧
    (((runLoop (mkCtx cfgMd (fun _ => str "hi") shaH trT clk0) []
        (initState (mkCtx cfgMd (fun _ => str "hi") shaH trT clk0)
          cfgMd.filter [str "./workspace/r/a.md"] ⟨str "old", []⟩ (str "c1"))).disk.files =
      (⟨str "old", []⟩ : TranslationMeta).files ++
        recordsOf (runLoop (mkCtx cfgMd (fun _ => str "hi") shaH trT clk0) []
          (initState (mkCtx cfgMd (fun _ => str "hi") shaH trT clk0)
            cfgMd.filter [str "./workspace/r/a.md"] ⟨str "old", []⟩ (str "c1"))).trace ∧
      (recordsOf (runLoop (mkCtx cfgMd (fun _ => str "hi") shaH trT clk0) []
          (initState (mkCtx cfgMd (fun _ => str "hi") shaH trT clk0)
            cfgMd.filter [str "./workspace/r/a.md"] ⟨str "old", []⟩ (str "c1"))).trace).map
          (fun e => (e.path, e.hash)) =
        (writeSrcsOf (runLoop (mkCtx cfgMd (fun _ => str "hi") shaH trT clk0) []
          (initState (mkCtx cfgMd (fun _ => str "hi") shaH trT clk0)
            cfgMd.filter [str "./workspace/r/a.md"] ⟨str "old", []⟩ (str "c1"))).trace).map
          (fun g => (g, shaH ((fun _ => str "hi") g)))) ∧
     (rC6a.disk.files =
       (⟨str "old", []⟩ : TranslationMeta).files ++ recordsOf rC6a.trace ∧
      (recordsOf rC6a.trace).map (fun e => (e.path, e.hash)) =
        (writeSrcsOf rC6a.trace).map (fun g => (g, shaH ((fun _ => str "hi") g))))) :=
  ⟨by decide,
    C4_incremental_meta_persist cfgMd [str "./workspace/r/a.md"] (fun _ => str "hi")
      ⟨str "old", []⟩ (str "c1") shaH trT clk0 [] [str "./workspace/r/a.md"] (by decide)⟩

/-- C6: if a first run completes without aborting, a second run over the
same walked files with unchanged content, loading the metadata the first
run left on disk, makes no translation-backend call, appends no
metadata entry, writes nothing into the translated output from the loop,
does not abort, counts every translatable file as already translated,
and leaves the metadata exactly as loaded. -/
theorem C6_second_run_idempotent (config : TranslationConfig) (files : List Str)
    (content : Str → Str) (meta0 : TranslationMeta) (commit1 commit2 : Str)
    (sha : Str → Str) (translate1 translate2 : Str → Option Str) (clock1 clock2 : Nat → Nat)
    (hab1 : (run config files content meta0 commit1 sha translate1 clock1).aborted = false) :
    (∀ g c, Event.call g c ∉ (run config files content
        (run config files content meta0 commit1 sha translate1 clock1).disk
        commit2 sha translate2 clock2).trace) ∧
    recordsOf (run config files content
        (run config files content meta0 commit1 sha translate1 clock1).disk
        commit2 sha translate2 clock2).trace = [] ∧
    (∀ g o d, Event.write g o d ∉ (run config files content
        (run config files content meta0 commit1 sha translate1 clock1).disk
        commit2 sha translate2 clock2).trace) ∧
    (run config files content
        (run config files content meta0 commit1 sha translate1 clock1).disk
        commit2 sha translate2 clock2).aborted = false ∧
    (run config files content
        (run config files content meta0 commit1 sha translate1 clock1).disk
        commit2 sha translate2 clock2).translated_count =
      (run config files content
        (run config files content meta0 commit1 sha translate1 clock1).disk
        commit2 sha translate2 clock2).filtered.length ∧
    (run config files content
        (run config files content meta0 commit1 sha translate1 clock1).disk
        commit2 sha translate2 clock2).meta.files =
      (run config files content meta0 commit1 sha translate1 clock1).disk.files := by
  have hcov1 := run_coverage config files content meta0 commit1 sha translate1 clock1 hab1
  obtain ⟨Δ, s1, s2, s3, s4, s5, s6, s7, s8⟩ :=
    run_spec config files content meta0 commit1 sha translate1 clock1
  have hcov2 : ∀ f ∈ filteredFiles config.filter files,
      (∃ e ∈ (run config files content meta0 commit1 sha translate1 clock1).disk.files,
        e.path = f ∧ e.hash = sha (content f)) ∨ content f = [] := by
    intro f hfm
    rcases hcov1 f hfm with hc | ⟨e, he, h1', h2'⟩
    · exact Or.inr hc
    · exact Or.inl ⟨e, by rw [s4]; exact he, h1', h2'⟩
  obtain ⟨h1, h2, h3, h4, h5, h6, h7, h8, h9⟩ :=
    run_covered config files content
      ((run config files content meta0 commit1 sha translate1 clock1).disk)
      commit2 sha translate2 clock2 hcov2
  refine ⟨h6, h7, h9, h4, ?_, h1⟩
  have hfe : (run config files content
      (run config files content meta0 commit1 sha translate1 clock1).disk
      commit2 sha translate2 clock2).filtered = filteredFiles config.filter files := rfl
  rw [hfe]
  exact h5

/-- C6 witness: the concrete two-run fixture, first run translating one
file, second run over unchanged content skipping it. -/
theorem C6_witness :
    rC6a.aborted = false ∧
    ((∀ g c, Event.call g c ∉ rC6b.trace) ∧
     recordsOf rC6b.trace = [] ∧
     (∀ g o d, Event.write g o d ∉ rC6b.trace) ∧
     rC6b.aborted = false ∧
     rC6b.translated_count = rC6b.filtered.length ∧
     rC6b.meta.files = rC6a.disk.files) :=
  ⟨by decide,
    C6_second_run_idempotent cfgMd [str "./workspace/r/a.md"] (fun _ => str "hi")
      ⟨str "old", []⟩ (str "c1") (str "c2") shaH trT trT clk0 clk0 (by decide)⟩

/-- C7 counterexample.  Retranslating a file whose content changed since
the entry loaded from metadata appends a second FileEntry with the same
path and keeps the stale one, so the files list holds two entries for
one path after the run, on disk as in memory. -/
theorem C7_counterexample :
    (rC7.meta.files.map fun e => e.path) =
      [str "./workspace/r/a.md", str "./workspace/r/a.md"] ∧
    ¬ (rC7.meta.files.map fun e => e.path).Nodup ∧
    rC7.disk.files = rC7.meta.files := by
  decide

/-- C7 (amended): path is not a key of the metadata files list —
retranslation of changed content appends a second entry with the same
path and keeps the old one; what the run does preserve is at most one
entry per (path, hash) pair: if the loaded list has pairwise distinct
(path, hash) pairs, so does the final list, in memory and on disk. -/
theorem C7_pathhash_at_most_once (config : TranslationConfig) (files : List Str)
    (content : Str → Str) (meta0 : TranslationMeta) (commit : Str) (sha : Str → Str)
    (translate : Str → Option Str) (clock : Nat → Nat)
    (hnd : (meta0.files.map fun e => (e.path, e.hash)).Nodup) :
    (((run config files content meta0 commit sha translate clock).meta.files.map
        fun e => (e.path, e.hash)).Nodup) ∧
    (run config files content meta0 commit sha translate clock).disk.files =
      (run config files content meta0 commit sha translate clock).meta.files := by
  constructor
  · rw [run_def]
    exact runLoop_pairs_nodup _ _ _ hnd
  · obtain ⟨Δ, -, -, -, s4, -⟩ :=
      run_spec config files content meta0 commit sha translate clock
    exact s4

/-- C7 witness: the amended statement applied to the retranslation run
whose loaded metadata has one entry. -/
theorem C7_witness :
    (((⟨str "old", [⟨str "./workspace/r/a.md", str "Hstale", 7⟩]⟩ :
        TranslationMeta).files.map fun e => (e.path, e.hash)).Nodup) ∧
    ((rC7.meta.files.map fun e => (e.path, e.hash)).Nodup ∧
     rC7.disk.files = rC7.meta.files) :=
  ⟨by decide,
    C7_pathhash_at_most_once cfgMd [str "./workspace/r/a.md"]
      (fun _ => str "new content")
      ⟨str "old", [⟨str "./workspace/r/a.md", str "Hstale", 7⟩]⟩ (str "new")
      shaH trT clk0 (by decide)⟩

/-- C8 counterexample.  A pass-through file whose path contains the
source root string twice: the code's global string replacement maps BOTH
occurrences, so the copy lands at a path different from the one obtained
by substituting only the source root prefix, and no event of the run
writes at the prefix-substituted path the claim requires. -/
theorem C8_counterexample :
    pC8 ∈ [pC8] ∧
    pC8 ∉ rC8.filtered ∧
    rC8.trace = [Event.copy pC8
      (dirname (replaceAll (repo_path cfgTxt.repo) (translated_repo_path cfgTxt.repo) pC8))
      (replaceAll (repo_path cfgTxt.repo) (translated_repo_path cfgTxt.repo) pC8)
      (str "hello")] ∧
    replaceAll (repo_path cfgTxt.repo) (translated_repo_path cfgTxt.repo) pC8 =
      str "./workspace/r-translated/x./workspace/r-translatedest.md" ∧
    rootSubstOutput (repo_path cfgTxt.repo) (translated_repo_path cfgTxt.repo) pC8 =
      str "./workspace/r-translated/x./workspace/rest.md" ∧
    (∀ ev ∈ rC8.trace, ¬ ev.outPath =
      some (rootSubstOutput (repo_path cfgTxt.repo) (translated_repo_path cfgTxt.repo) pC8)) := by
  decide

/-- C8 (amended): every pass-through file is copied byte-identically,
after its parent directory is ensured, at the path obtained by replacing
EVERY occurrence of the source root string in its path with the output
root string (which coincides with prefix substitution whenever the
source root occurs only as the leading prefix). -/
theorem C8_passthrough_global_substitution (config : TranslationConfig) (files : List Str)
    (content : Str → Str) (meta0 : TranslationMeta) (commit : Str) (sha : Str → Str)
    (translate : Str → Option Str) (clock : Nat → Nat) (f : Str)
    (hmem : f ∈ files) (hnf : f ∉ filteredFiles config.filter files) :
    Event.copy f
      (dirname (replaceAll (repo_path config.repo) (translated_repo_path config.repo) f))
      (replaceAll (repo_path config.repo) (translated_repo_path config.repo) f)
      (content f) ∈ (run config files content meta0 commit sha translate clock).trace := by
  rw [run_def]
  have h2 : ¬ (filteredFiles config.filter files).contains f = true := by
    intro hcon
    exact hnf (List.mem_of_elem_eq_true hcon)
  exact (runLoop_trace_isPre _ _ _).subset
    (copyPhase_mem (mkCtx config content sha translate clock)
      (filteredFiles config.filter files) files f hmem h2)

/-- C8 witness: the amended statement applied to the concrete
pass-through fixture. -/
theorem C8_witness :
    (pC8 ∈ [pC8] ∧ pC8 ∉ filteredFiles cfgTxt.filter [pC8]) ∧
    Event.copy pC8
      (dirname (replaceAll (repo_path cfgTxt.repo) (translated_repo_path cfgTxt.repo) pC8))
      (replaceAll (repo_path cfgTxt.repo) (translated_repo_path cfgTxt.repo) pC8)
      ((fun _ => str "hello") pC8) ∈ rC8.trace :=
  ⟨⟨by decide, by decide⟩,
    C8_passthrough_global_substitution cfgTxt [pC8] (fun _ => str "hello")
      ⟨str "old", []⟩ (str "new") shaH trT clk0 pC8 (by decide) (by decide)⟩

-- Sanity checks of the embedding on concrete data.
example : prase_target_suffix (str "*.md *.txt") = [str "md", str "txt"] := by decide
example : prase_target_suffix (str "") = [str ""] := by decide
example : replaceAll (str "ab") (str "X") (str "zabab") = str "zXX" := by decide
example : dirname (str "a/b/c.md") = str "a/b" := by decide
example : dirname (str "abc") = str "abc" := by decide
example : repo_name (str "https://github.com/enkerewpo/autodocs.git")
    = str "autodocs" := by decide
example : containsStr (str "abcd") (str "bc") = true := by decide
example : containsStr (str "abcd") (str "bd") = false := by decide

end Autodocs
